import Mathlib

/-
Verification of the sisl excerpt: the plug/hook interception framework in
src/sisl/_plugs.py and the History/Metric utilities in src/sisl/mixing/base.py.
Python dicts are embedded as insertion-ordered association lists, Python object
identity as addresses into a Store, and hooks/callables as Lean functions that
transform the value held at the working address (the module docstring states
hooks always work in place on the object they are given).
-/

namespace Sisl

/-! ## Python dict as an insertion-ordered association list -/

/-- Lookup in a Python dict: first (unique) binding of the key, or `none`
(a `KeyError` site in the source). -/
def dictLookup {β : Type _} : List (String × β) → String → Option β
  | [], _ => none
  | (k', v') :: rest, k => if k' = k then some v' else dictLookup rest k

/-- Assignment `d[k] = v` on a Python dict: replaces the value in place if the
key exists (keeping its position), otherwise appends the new binding. -/
def dictSet {β : Type _} : List (String × β) → String → β → List (String × β)
  | [], k, v => [(k, v)]
  | (k', v') :: rest, k, v =>
    if k' = k then (k, v) :: rest else (k', v') :: dictSet rest k v

/-! ## The plugs model (src/sisl/_plugs.py) -/

/-- Keyword arguments of a hooked call.  Only the truth value of an entry
matters to the dispatcher (the `inplace` flag), so values are booleans. -/
abbrev Kwargs := List (String × Bool)

/-- A hook or wrapped callable: receives the working value, the positional
arguments and the keyword arguments, and returns the new working value
(hooks work in place on the object they are given, per the module docstring). -/
abbrev Hook (V A : Type) := V → List A → Kwargs → V

/-- A plug ("attachment"): two registries mapping operation names to hooks,
mirroring `plug.pre_hooks` and `plug.post_hooks`. -/
structure Plug (V A : Type) where
  pre_hooks : List (String × Hook V A)
  post_hooks : List (String × Hook V A)

namespace PlugsMixin

/-- Hook collection loop of `PlugsMixin.__getattribute__` (lines 62-70).
In the source, `for name, plug in self._plugs.items()` rebinds the variable
`name`, so each registry is queried with the plug's own key in `_plugs`,
independently of the attribute name being accessed; a `KeyError` (lookup
miss) contributes nothing. -/
def collectHooks {V A : Type} (plugs : List (String × Plug V A)) :
    List (Hook V A) × List (Hook V A) :=
  plugs.foldl
    (fun acc entry =>
      let pre := match dictLookup entry.2.pre_hooks entry.1 with
        | some f => acc.1 ++ [f]
        | none => acc.1
      let post := match dictLookup entry.2.post_hooks entry.1 with
        | some f => acc.2 ++ [f]
        | none => acc.2
      (pre, post))
    ([], [])

/-- Result of `PlugsMixin.__getattribute__`: either the attribute unchanged
(`raw`: non-callable, or both hook lists empty), or the `combi_hook` wrapper
carrying the collected pre/post hook lists. -/
inductive AccessResult (V A : Type) where
  | raw
  | wrapped (pre post : List (Hook V A))

/-- `PlugsMixin.__getattribute__` (lines 53-94): resolve the member; return it
unchanged when it is not callable or when no hooks were collected, otherwise
return the wrapper with the collected hook lists.  The accessed name
`accessedName` plays no role in hook collection (see `collectHooks`). -/
def getattribute {V A : Type} (plugs : List (String × Plug V A))
    (accessedName : String) (isCallable : Bool) : AccessResult V A :=
  if !isCallable then .raw
  else
    match collectHooks plugs with
    | ([], []) => .raw
    | (pre, post) => .wrapped pre post

end PlugsMixin

/-! ## Object store: Python object identity and `obj.copy()` -/

/-- A heap of Python objects: the cell at address `a` holds `cells[a]`. -/
structure Store (V : Type) where
  cells : List V

namespace Store

/-- Value held at an address (addresses used in the theorems are in range). -/
def get {V : Type} [Inhabited V] (s : Store V) (a : Nat) : V :=
  s.cells.getD a default

/-- Overwrite the cell at an address (in-place mutation of that object). -/
def write {V : Type} (s : Store V) (a : Nat) (v : V) : Store V :=
  ⟨s.cells.set a v⟩

/-- `obj.copy()`: allocate a fresh, independent object holding the same value;
returns the new store and the fresh address. -/
def alloc {V : Type} (s : Store V) (v : V) : Store V × Nat :=
  (⟨s.cells ++ [v]⟩, s.cells.length)

end Store

/-- Keyword arguments as seen by the hooks and the wrapped callable
(lines 77-84 of `combi_hook`): if the caller supplied `inplace` they are left
alone; otherwise, if the callable declares an `inplace` parameter
(`inspect.getfullargspec`), `kwargs["inplace"] = True` is synthesized. -/
def effectiveKwargs (kwargs : Kwargs) (declares : Bool) : Kwargs :=
  if (dictLookup kwargs "inplace").isSome then kwargs
  else if declares then dictSet kwargs "inplace" true else kwargs

/-- One hook loop of `combi_hook` (`for f in ...: obj = f(obj, *args, **kwargs)`):
each hook transforms the value at the working address in turn. -/
def runPipe {V A : Type} [Inhabited V] (args : List A) (kw : Kwargs) :
    List (Hook V A) → Store V → Nat → Store V
  | [], s, _ => s
  | f :: fs, s, addr => runPipe args kw fs (s.write addr (f (s.get addr) args kw)) addr

/-- The wrapper returned by `__getattribute__` (lines 76-93).  `attr` is the
wrapped callable, `declares` whether it declares an `inplace` parameter.
The local `inplace` comes only from the caller's kwargs (the synthesis branch
does not update it), a copy is made when that local flag is false, then the
pre-hooks, the callable and the reversed post-hooks thread the working object.
Returns the final store and the address of the returned object. -/
def combi_hook {V A : Type} [Inhabited V] (attr : Hook V A) (declares : Bool)
    (pre post : List (Hook V A)) (s : Store V) (objAddr : Nat)
    (args : List A) (kwargs : Kwargs) : Store V × Nat :=
  let inplace := (dictLookup kwargs "inplace").getD false
  let kw := effectiveKwargs kwargs declares
  let copied := if inplace then (s, objAddr) else s.alloc (s.get objAddr)
  let s2 := runPipe args kw pre copied.1 copied.2
  let s3 := s2.write copied.2 (attr (s2.get copied.2) args kw)
  let s4 := runPipe args kw post.reverse s3 copied.2
  (s4, copied.2)

/-! ## `PlugsMixin.__setattr__` and `__init__` -/

/-- Error surfaced by `PlugsMixin.__setattr__`: the `AttributeError` raised
when the assigned name collides with a plug (the ImmutableName condition). -/
inductive SetattrError where
  | immutableName
deriving DecidableEq

/-- State of a host object: its `_plugs` dict and its plain attribute dict. -/
structure HostState (V A : Type) where
  plugs : List (String × Plug V A)
  fields : List (String × V)

namespace PlugsMixin

/-- `PlugsMixin.__setattr__` (lines 48-51): refuse the assignment when the
name is a key of `_plugs`, otherwise bind the plain attribute. -/
def setattr {V A : Type} (st : HostState V A) (nm : String) (v : V) :
    HostState V A × Option SetattrError :=
  if (dictLookup st.plugs nm).isSome then (st, some .immutableName)
  else ({ st with fields := dictSet st.fields nm v }, none)

/-- Attribute lookup of `_plugs` performed while `PlugsMixin.__init__` runs,
before the `_plugs` entry exists: `object.__getattribute__` fails with
`AttributeError`, Python falls back to `__getattr__`, whose body
`self._plugs[name]` performs the very same lookup again one stack frame
deeper.  The fuel parameter bounds the recursion depth; CPython aborts it
with `RecursionError`. -/
def initLookup : Nat → Option (List (String × Unit))
  | 0 => none
  | fuel + 1 => initLookup fuel

end PlugsMixin

/-! ## History (src/sisl/mixing/base.py, class History) -/

/-- Errors raised by `History.append`/`History.clear`: the `ValueError` for a
length mismatch in `append` (the LengthMismatch condition) and the
`IndexError` for an out-of-range slot or position. -/
inductive HistError where
  | lengthMismatch
  | indexError
deriving DecidableEq

/-- `History`: `variables` bounded slots (`collections.deque(maxlen=history)`),
all sharing the same capacity. -/
structure History (V : Type) where
  maxlen : Nat
  hist : List (List V)
deriving DecidableEq

namespace History

/-- `History.__init__(history, variables)`: `nvars` empty slots of capacity
`history` (Lean reserves the word used by the source for the slot count, so
it is written `nvars` throughout). -/
def init (V : Type) (history nvars : Nat) : History V :=
  ⟨history, List.replicate nvars []⟩

/-- The `History.variables` property: the number of slots. -/
def nvars {V : Type} (h : History V) : Nat :=
  h.hist.length

/-- `deque.append` on a deque with `maxlen`: add at the right, evicting from
the left whatever exceeds the capacity. -/
def dequeAppend {V : Type} (maxlen : Nat) (xs : List V) (x : V) : List V :=
  let ys := xs ++ [x]
  ys.drop (ys.length - maxlen)

/-- The loop of `History.append`
(`for i, arg in zip(variables, args): self._hist[i].append(arg)`): appends
pair by pair; an out-of-range slot index aborts with `IndexError`, keeping
the appends already performed. -/
def appendLoop {V : Type} (h : History V) : List (Nat × V) → History V × Option HistError
  | [] => (h, none)
  | (i, a) :: rest =>
    if hlt : i < h.hist.length then
      appendLoop ⟨h.maxlen, h.hist.set i (dequeAppend h.maxlen (h.hist.get ⟨i, hlt⟩) a)⟩ rest
    else (h, some .indexError)

/-- `History.append(*args, variables=None)` (lines 92-112): `variables`
defaults to all slots; a length mismatch between values and selected slots
raises `ValueError` before any slot is touched; otherwise each value is
appended to its slot. -/
def append {V : Type} (h : History V) (args : List V) (vars? : Option (List Nat)) :
    History V × Option HistError :=
  let vars := vars?.getD (List.range h.nvars)
  if args.length ≠ vars.length then (h, some .lengthMismatch)
  else appendLoop h (vars.zip args)

/-- Descending insertion used by `index.sort(reverse=True)`. -/
def insertDesc (i : Nat) : List Nat → List Nat
  | [] => [i]
  | j :: js => if j ≤ i then i :: j :: js else j :: insertDesc i js

/-- `index.sort(reverse=True)` in `History.clear`: sort the positions in
decreasing order before deleting. -/
def sortDesc : List Nat → List Nat
  | [] => []
  | i :: is => insertDesc i (sortDesc is)

/-- The inner loop of `History.clear` with an index list
(`for i in index: del self._hist[v][i]`): delete position by position; an
out-of-range position aborts with `IndexError`, keeping deletions already
performed on this slot. -/
def delLoop {V : Type} (xs : List V) : List Nat → List V × Option HistError
  | [] => (xs, none)
  | i :: rest =>
    if i < xs.length then delLoop (xs.eraseIdx i) rest
    else (xs, some .indexError)

/-- The `index is None` branch of `History.clear`
(`for v in variables: self._hist[v].clear()`). -/
def clearSlotsLoop {V : Type} (h : History V) : List Nat → History V × Option HistError
  | [] => (h, none)
  | v :: vs =>
    if v < h.hist.length then clearSlotsLoop ⟨h.maxlen, h.hist.set v []⟩ vs
    else (h, some .indexError)

/-- The indexed branch of `History.clear`
(`for v in variables: for i in index: del self._hist[v][i]`), with the index
list already sorted in decreasing order. -/
def delVarsLoop {V : Type} (sidx : List Nat) (h : History V) :
    List Nat → History V × Option HistError
  | [] => (h, none)
  | v :: vs =>
    if hv : v < h.hist.length then
      match delLoop (h.hist.get ⟨v, hv⟩) sidx with
      | (slot, none) => delVarsLoop sidx ⟨h.maxlen, h.hist.set v slot⟩ vs
      | (slot, some e) => (⟨h.maxlen, h.hist.set v slot⟩, some e)
    else (h, some .indexError)

/-- `History.clear(index=None, variables=None)` (lines 114-137): `variables`
defaults to all slots; without an index the selected slots are emptied; with
an index list the positions are sorted in decreasing order and deleted from
each selected slot. -/
def clear {V : Type} (h : History V) (index? vars? : Option (List Nat)) :
    History V × Option HistError :=
  let vars := vars?.getD (List.range h.nvars)
  match index? with
  | none => clearSlotsLoop h vars
  | some index => delVarsLoop (sortDesc index) h vars

/-- Specification-side description of indexed clearing: keep exactly the
elements whose pre-clear position (counting from `p`) is not in `idxs`,
preserving their relative order.  Stated from the spec's words for
comparison with the `delLoop`/`sortDesc` implementation. -/
def keepNotIn (idxs : List Nat) : Nat → List V → List V
  | _, [] => []
  | p, x :: xs => if p ∈ idxs then keepNotIn idxs (p + 1) xs else x :: keepNotIn idxs (p + 1) xs

end History

/-! ## Metric (src/sisl/mixing/base.py, class Metric) -/

/-- `Metric`: holds the transform applied to the right operand.  The value
type's own operations are duck-typed, so they are passed to `inner`
explicitly: `dotFn` is the (fallible) native reduction `a.dot(x)` and
`mulSum` the elementwise `(a * x).sum()`. -/
structure Metric (V : Type) where
  metric : V → V

/-- `Metric.__init__(metric=None)`: the held transform, with the `_dummy_dot`
identity substituted when no metric is given. -/
def Metric.ofMetric {V : Type} (m : Option (V → V)) : Metric V :=
  ⟨m.getD id⟩

/-- `Metric.inner(a, b)` (lines 36-46): try `a.dot(self._metric(b))`; on any
failure (`except:`) return `(a * self._metric(b)).sum()` instead of
propagating the error. -/
def Metric.inner {V R : Type} (M : Metric V) (dotFn : V → V → Option R)
    (mulSum : V → V → R) (a b : V) : R :=
  match dotFn a (M.metric b) with
  | some r => r
  | none => mulSum a (M.metric b)

/-- Elementwise multiply-then-sum on integer vectors, the concrete array-like
reduction used by the witnesses. -/
def listMulSum (a b : List Int) : Int :=
  ((a.zip b).map (fun p => p.1 * p.2)).sum

/-- A concrete fallible native dot for the witnesses: defined exactly when the
operand lengths agree, in which case it coincides with `listMulSum`. -/
def listDot (a b : List Int) : Option Int :=
  if a.length = b.length then some (listMulSum a b) else none

/-! ## Dictionary lemmas -/

theorem dictLookup_dictSet_self {β : Type _} (l : List (String × β)) (k : String) (v : β) :
    dictLookup (dictSet l k v) k = some v := by
  induction l with
  | nil => simp [dictLookup, dictSet]
  | cons hd tl ih =>
    obtain ⟨k', v'⟩ := hd
    by_cases hk : k' = k
    · simp [dictLookup, dictSet, hk]
    · simp [dictLookup, dictSet, hk, ih]

theorem dictSet_of_lookup_none {β : Type _} (l : List (String × β)) (k : String) (v : β)
    (h : dictLookup l k = none) : dictSet l k v = l ++ [(k, v)] := by
  induction l with
  | nil => rfl
  | cons hd tl ih =>
    obtain ⟨k', v'⟩ := hd
    by_cases hk : k' = k
    · simp [dictLookup, hk] at h
    · simp only [dictLookup, hk, if_false] at h
      simp [dictSet, hk, ih h]

/-! ## Store and pipeline lemmas -/

theorem Store.get_write_ne {V : Type} [Inhabited V] (s : Store V) (a b : Nat) (v : V)
    (hne : b ≠ a) : (s.write a v).get b = s.get b := by
  simp only [Store.write, Store.get, List.getD_eq_getD_get?, List.get?_eq_getElem?]
  rw [List.getElem?_set_ne (fun h => hne h.symm)]

theorem Store.length_write {V : Type} (s : Store V) (a : Nat) (v : V) :
    (s.write a v).cells.length = s.cells.length := by
  simp [Store.write]

theorem Store.get_alloc_lt {V : Type} [Inhabited V] (s : Store V) (v : V) (a : Nat)
    (ha : a < s.cells.length) : (s.alloc v).1.get a = s.get a := by
  simp only [Store.alloc, Store.get]
  exact List.getD_append _ _ _ _ ha

theorem runPipe_get_ne {V A : Type} [Inhabited V] (args : List A) (kw : Kwargs)
    (fs : List (Hook V A)) (s : Store V) (addr a : Nat) (hne : a ≠ addr) :
    (runPipe args kw fs s addr).get a = s.get a := by
  induction fs generalizing s with
  | nil => rfl
  | cons f fs ih => rw [runPipe, ih, Store.get_write_ne _ _ _ _ hne]

theorem runPipe_length {V A : Type} [Inhabited V] (args : List A) (kw : Kwargs)
    (fs : List (Hook V A)) (s : Store V) (addr : Nat) :
    (runPipe args kw fs s addr).cells.length = s.cells.length := by
  induction fs generalizing s with
  | nil => rfl
  | cons f fs ih => rw [runPipe, ih, Store.length_write]

/-- When the caller-visible `inplace` flag is falsy (absent or explicitly
false), `combi_hook` rebinds the working object to a fresh copy: the returned
address is the fresh cell, the receiver's cell is untouched, and the store has
grown by exactly that one copy. -/
theorem combi_hook_copies {V A : Type} [Inhabited V] (attr : Hook V A) (declares : Bool)
    (pre post : List (Hook V A)) (s : Store V) (objAddr : Nat)
    (args : List A) (kwargs : Kwargs)
    (hfl : (dictLookup kwargs "inplace").getD false = false)
    (haddr : objAddr < s.cells.length) :
    (combi_hook attr declares pre post s objAddr args kwargs).2 = s.cells.length
    ∧ (combi_hook attr declares pre post s objAddr args kwargs).1.get objAddr = s.get objAddr
    ∧ (combi_hook attr declares pre post s objAddr args kwargs).1.cells.length
        = s.cells.length + 1 := by
  have hne : objAddr ≠ s.cells.length := Nat.ne_of_lt haddr
  refine ⟨?_, ?_, ?_⟩
  · simp [combi_hook, hfl, Store.alloc]
  · simp only [combi_hook, hfl, Bool.false_eq_true, if_false, Store.alloc]
    rw [runPipe_get_ne _ _ _ _ _ _ hne, Store.get_write_ne _ _ _ _ hne,
      runPipe_get_ne _ _ _ _ _ _ hne]
    exact Store.get_alloc_lt s (s.get objAddr) objAddr haddr
  · simp [combi_hook, hfl, runPipe_length, Store.length_write, Store.alloc]

/-- When the caller explicitly passed a truthy `inplace`, `combi_hook` does not
copy: the working object is the receiver itself and no cell is allocated. -/
theorem combi_hook_in_place {V A : Type} [Inhabited V] (attr : Hook V A) (declares : Bool)
    (pre post : List (Hook V A)) (s : Store V) (objAddr : Nat)
    (args : List A) (kwargs : Kwargs)
    (hfl : (dictLookup kwargs "inplace").getD false = true) :
    (combi_hook attr declares pre post s objAddr args kwargs).2 = objAddr
    ∧ (combi_hook attr declares pre post s objAddr args kwargs).1.cells.length
        = s.cells.length := by
  constructor
  · simp [combi_hook, hfl]
  · simp [combi_hook, hfl, runPipe_length, Store.length_write]

/-! ## Claims C1-C7 -/

/-- C1: FALSE of the code.  A host object with a single attachment (named
`"p"`) whose pre-hook registry maps the accessed operation name `"op"` to a
hook: the hook lists come out empty, because the collection loop looks each
registry up under the plug's own name (the loop variable shadows the accessed
name), so the attribute is returned unwrapped and the hook is never called. -/
theorem claim1_code_eval_hooks_missed :
    PlugsMixin.getattribute (V := Unit) (A := Unit)
      [("p", ⟨[("op", fun v _ _ => v)], []⟩)] "op" true = .raw := rfl

/-- C2: for a host with attachment `A` inserted first and `B` second, both
with pre- and post-hooks that the dispatcher matches for the invoked
operation (with the source's collection, a registry entry under the plug's
own key), the access wraps the callable with pre-list `[fA, fB]` and
post-list `[gA, gB]`, and the invocation threads one working value through
exactly `A.pre`, `B.pre`, the body, `B.post`, `A.post`, in that order. -/
theorem claim2_two_plug_order {V A : Type} [Inhabited V]
    (fA gA fB gB body : Hook V A) (v : V) (args : List A) :
    PlugsMixin.getattribute
        [("A", ⟨[("A", fA)], [("A", gA)]⟩), ("B", ⟨[("B", fB)], [("B", gB)]⟩)]
        "op" true
      = .wrapped [fA, fB] [gA, gB]
    ∧ (combi_hook body false [fA, fB] [gA, gB] ⟨[v]⟩ 0 args []).1.get
        (combi_hook body false [fA, fB] [gA, gB] ⟨[v]⟩ 0 args []).2
      = gA (gB (body (fB (fA v args []) args []) args []) args []) args [] :=
  ⟨rfl, rfl⟩

/-- C2 witness: with concrete hooks (A adds 1 and triples, B adds 5 and
multiplies by 7) around a body adding 100, starting from 0 the threaded
result is `((((0+1)+5)+100)*7)*3 = 2226`, matching the order A.pre, B.pre,
body, B.post, A.post. -/
theorem claim2_witness :
    (combi_hook (V := Nat) (A := Nat) (fun v _ _ => v + 100) false
        [fun v _ _ => v + 1, fun v _ _ => v + 5]
        [fun v _ _ => v * 3, fun v _ _ => v * 7] ⟨[0]⟩ 0 [] []).1.get
      (combi_hook (V := Nat) (A := Nat) (fun v _ _ => v + 100) false
        [fun v _ _ => v + 1, fun v _ _ => v + 5]
        [fun v _ _ => v * 3, fun v _ _ => v * 7] ⟨[0]⟩ 0 [] []).2 = 2226 :=
  ((claim2_two_plug_order (fun v _ _ => v + 1) (fun v _ _ => v * 3) (fun v _ _ => v + 5)
      (fun v _ _ => v * 7) (fun v _ _ => v + 100) 0 []).2).trans (by decide)

/-- C3: when the in-place flag is effectively off — the caller did not supply
`inplace` and the callable does not declare it, or the caller passed an
explicit false — the receiver's cell is unchanged after the call (it equals
its pre-call snapshot) and the returned working object is a distinct copy. -/
theorem claim3_noninplace_preserves_receiver {V A : Type} [Inhabited V]
    (attr : Hook V A) (declares : Bool) (pre post : List (Hook V A))
    (s : Store V) (objAddr : Nat) (args : List A) (kwargs : Kwargs)
    (haddr : objAddr < s.cells.length)
    (hoff : (dictLookup kwargs "inplace" = none ∧ declares = false)
        ∨ dictLookup kwargs "inplace" = some false) :
    (combi_hook attr declares pre post s objAddr args kwargs).1.get objAddr = s.get objAddr
    ∧ (combi_hook attr declares pre post s objAddr args kwargs).2 ≠ objAddr := by
  have hfl : (dictLookup kwargs "inplace").getD false = false := by
    rcases hoff with ⟨h1, _⟩ | h1 <;> rw [h1] <;> rfl
  obtain ⟨hret, hget, _⟩ :=
    combi_hook_copies attr declares pre post s objAddr args kwargs hfl haddr
  exact ⟨hget, by rw [hret]; exact (Nat.ne_of_lt haddr).symm⟩

/-- C3 witness: a concrete non-in-place call (flag absent, callable does not
declare it) leaves the receiver cell holding its old value 7 and returns a
different object. -/
theorem claim3_witness :
    (combi_hook (V := Nat) (A := Nat) (fun v _ _ => v + 1) false
        [fun v _ _ => v * 2] [] ⟨[7]⟩ 0 [] []).1.get 0 = 7
    ∧ (combi_hook (V := Nat) (A := Nat) (fun v _ _ => v + 1) false
        [fun v _ _ => v * 2] [] ⟨[7]⟩ 0 [] []).2 ≠ 0 :=
  claim3_noninplace_preserves_receiver (fun v _ _ => v + 1) false
    [fun v _ _ => v * 2] [] ⟨[7]⟩ 0 [] [] (by decide) (Or.inl ⟨rfl, rfl⟩)

/-- C4 counterexample: with the flag synthesized (callable declares `inplace`,
caller omitted it), the claim asserts no copy is made and receiver and return
value share the post-call state.  On a one-cell store holding 5, with the body
incrementing the working value, the final store has two cells and the receiver
cell (still 5) differs from the returned object (6): the claim is false. -/
theorem claim4_counterexample :
    ¬ ((combi_hook (V := Nat) (A := Nat) (fun v _ _ => v + 1) true
          [fun v _ _ => v] [] ⟨[5]⟩ 0 [] []).1.cells.length = 1
        ∧ (combi_hook (V := Nat) (A := Nat) (fun v _ _ => v + 1) true
            [fun v _ _ => v] [] ⟨[5]⟩ 0 [] []).1.get 0
          = (combi_hook (V := Nat) (A := Nat) (fun v _ _ => v + 1) true
              [fun v _ _ => v] [] ⟨[5]⟩ 0 [] []).1.get
              (combi_hook (V := Nat) (A := Nat) (fun v _ _ => v + 1) true
                [fun v _ _ => v] [] ⟨[5]⟩ 0 [] []).2) := by
  decide

/-- C4 amended: only an explicit `inplace=True` from the caller avoids the
copy — then the returned object is the receiver itself and no cell is
allocated.  When the flag is synthesized (callable declares it, caller omitted
it), the dispatcher still copies the receiver: the returned object is a fresh
cell, the receiver's cell is unchanged, the store grows by one, and the hooks
and the callable receive `inplace=True` in their keyword arguments (so the
callable mutates the copy instead of copying again). -/
theorem claim4_amended_inplace_copy {V A : Type} [Inhabited V]
    (attr : Hook V A) (declares : Bool) (pre post : List (Hook V A))
    (s : Store V) (objAddr : Nat) (args : List A) (kwargs : Kwargs)
    (haddr : objAddr < s.cells.length) :
    (dictLookup kwargs "inplace" = some true →
      (combi_hook attr declares pre post s objAddr args kwargs).2 = objAddr
      ∧ (combi_hook attr declares pre post s objAddr args kwargs).1.cells.length
          = s.cells.length)
    ∧ (dictLookup kwargs "inplace" = none → declares = true →
      (combi_hook attr declares pre post s objAddr args kwargs).2 ≠ objAddr
      ∧ (combi_hook attr declares pre post s objAddr args kwargs).1.get objAddr = s.get objAddr
      ∧ (combi_hook attr declares pre post s objAddr args kwargs).1.cells.length
          = s.cells.length + 1
      ∧ dictLookup (effectiveKwargs kwargs declares) "inplace" = some true) := by
  constructor
  · intro h
    exact combi_hook_in_place attr declares pre post s objAddr args kwargs (by rw [h]; rfl)
  · intro h hd
    obtain ⟨hret, hget, hlen⟩ :=
      combi_hook_copies attr declares pre post s objAddr args kwargs (by rw [h]; rfl) haddr
    refine ⟨by rw [hret]; exact (Nat.ne_of_lt haddr).symm, hget, hlen, ?_⟩
    rw [hd]
    simp only [effectiveKwargs, h, Option.isSome_none, Bool.false_eq_true, if_false, if_true]
    exact dictLookup_dictSet_self kwargs "inplace" true

/-- C4 witness: explicit `inplace=True` on a one-cell store returns the
receiver's own address with no allocation; the synthesized case on the same
store returns a fresh address, preserves the receiver cell (3), grows the
store to two cells, and hands `inplace=True` to the callable. -/
theorem claim4_witness :
    ((combi_hook (V := Nat) (A := Nat) (fun v _ _ => v + 1) false
        [fun v _ _ => v] [] ⟨[3]⟩ 0 [] [("inplace", true)]).2 = 0
      ∧ (combi_hook (V := Nat) (A := Nat) (fun v _ _ => v + 1) false
          [fun v _ _ => v] [] ⟨[3]⟩ 0 [] [("inplace", true)]).1.cells.length = 1)
    ∧ ((combi_hook (V := Nat) (A := Nat) (fun v _ _ => v + 1) true
          [fun v _ _ => v] [] ⟨[3]⟩ 0 [] []).2 ≠ 0
      ∧ (combi_hook (V := Nat) (A := Nat) (fun v _ _ => v + 1) true
          [fun v _ _ => v] [] ⟨[3]⟩ 0 [] []).1.get 0 = 3
      ∧ (combi_hook (V := Nat) (A := Nat) (fun v _ _ => v + 1) true
          [fun v _ _ => v] [] ⟨[3]⟩ 0 [] []).1.cells.length = 2
      ∧ dictLookup (effectiveKwargs [] true) "inplace" = some true) :=
  ⟨(claim4_amended_inplace_copy (fun v _ _ => v + 1) false [fun v _ _ => v] []
      ⟨[3]⟩ 0 [] [("inplace", true)] (by decide)).1 rfl,
   (claim4_amended_inplace_copy (fun v _ _ => v + 1) true [fun v _ _ => v] []
      ⟨[3]⟩ 0 [] [] (by decide)).2 rfl rfl⟩

/-- C5 counterexample: a pre-hook that records the keyword arguments it is
called with receives `[("inplace", true)]` although the outer caller passed no
keyword arguments at all (the flag was synthesized because the callable
declares `inplace`): hooks do not always receive exactly the caller's
argument list. -/
theorem claim5_counterexample :
    (combi_hook (V := Kwargs) (A := Nat) (fun v _ _ => v) true
        [fun _ _ kw => kw] [] ⟨[[]]⟩ 0 [] []).1.get
      (combi_hook (V := Kwargs) (A := Nat) (fun v _ _ => v) true
        [fun _ _ kw => kw] [] ⟨[[]]⟩ 0 [] []).2
      = [("inplace", true)]
    ∧ ([("inplace", true)] : Kwargs) ≠ ([] : Kwargs) :=
  ⟨rfl, by decide⟩

/-- C5 amended: every hook and the wrapped callable receive the caller's
positional arguments unchanged and the keyword arguments
`effectiveKwargs kwargs declares`; these equal the caller's kwargs whenever
the caller supplied the `inplace` flag or the callable does not declare it,
and otherwise equal the caller's kwargs with `("inplace", true)` appended —
no other addition, removal or transformation occurs. -/
theorem claim5_amended_hook_arguments {V A : Type} [Inhabited V]
    (f1 f2 g1 g2 attr : Hook V A) (v : V) (args : List A)
    (kwargs : Kwargs) (declares : Bool) :
    ((combi_hook attr declares [f1, f2] [g1, g2] ⟨[v]⟩ 0 args kwargs).1.get
        (combi_hook attr declares [f1, f2] [g1, g2] ⟨[v]⟩ 0 args kwargs).2
      = g1 (g2 (attr (f2 (f1 v args (effectiveKwargs kwargs declares))
              args (effectiveKwargs kwargs declares))
            args (effectiveKwargs kwargs declares))
          args (effectiveKwargs kwargs declares))
        args (effectiveKwargs kwargs declares))
    ∧ ((dictLookup kwargs "inplace").isSome → effectiveKwargs kwargs declares = kwargs)
    ∧ (declares = false → effectiveKwargs kwargs declares = kwargs)
    ∧ (dictLookup kwargs "inplace" = none → declares = true →
        effectiveKwargs kwargs declares = kwargs ++ [("inplace", true)]) := by
  refine ⟨?_, ?_, ?_, ?_⟩
  · rcases h : dictLookup kwargs "inplace" with _ | b
    · simp only [combi_hook, h, Option.getD_none, Bool.false_eq_true, if_false]
      rfl
    · cases b
      · simp only [combi_hook, h, Option.getD_some, Bool.false_eq_true, if_false]
        rfl
      · simp only [combi_hook, h, Option.getD_some, if_true]
        rfl
  · intro h
    simp [effectiveKwargs, h]
  · intro h
    subst h
    simp [effectiveKwargs]
  · intro h hd
    subst hd
    simp only [effectiveKwargs, h, Option.isSome_none, Bool.false_eq_true, if_false, if_true]
    exact dictSet_of_lookup_none kwargs "inplace" true h

/-- C5 witness: with a foreign kwarg present and the flag synthesized, the
hooks' kwargs are the caller's with `("inplace", true)` appended; with the
flag supplied by the caller, or with a callable that does not declare it, the
hooks' kwargs are exactly the caller's. -/
theorem claim5_witness :
    effectiveKwargs [("x", false)] true = [("x", false), ("inplace", true)]
    ∧ effectiveKwargs [("inplace", false)] true = [("inplace", false)]
    ∧ effectiveKwargs [("x", false)] false = [("x", false)] :=
  ⟨(claim5_amended_hook_arguments (V := Nat) (A := Nat) (fun v _ _ => v) (fun v _ _ => v)
      (fun v _ _ => v) (fun v _ _ => v) (fun v _ _ => v) 0 [] [("x", false)] true).2.2.2 rfl rfl,
   (claim5_amended_hook_arguments (V := Nat) (A := Nat) (fun v _ _ => v) (fun v _ _ => v)
      (fun v _ _ => v) (fun v _ _ => v) (fun v _ _ => v) 0 [] [("inplace", false)] true).2.1 rfl,
   (claim5_amended_hook_arguments (V := Nat) (A := Nat) (fun v _ _ => v) (fun v _ _ => v)
      (fun v _ _ => v) (fun v _ _ => v) (fun v _ _ => v) 0 [] [("x", false)] false).2.2.1 rfl⟩

/-- C6: FALSE of the code.  `PlugsMixin.__init__` executes
`self._plugs = dict()`, whose `__setattr__` guard reads `self._plugs` before
the entry exists; that lookup falls back to `__getattr__`, which reads
`self._plugs` again, and so on: no recursion depth suffices for the lookup to
produce a value, so construction dies with `RecursionError` instead of
producing an object with an empty attachment set. -/
theorem claim6_code_eval_init_recursion :
    ∀ fuel : Nat, PlugsMixin.initLookup fuel = none := by
  intro fuel
  induction fuel with
  | zero => rfl
  | succ n ih => exact ih

/-- C7: assigning a plain value to a name bound to a plug fails with the
`AttributeError` (ImmutableName) and the `_plugs` dict — in particular the
attachment under that name — is unchanged. -/
theorem claim7_immutable_name {V A : Type} (st : HostState V A) (nm : String) (v : V)
    (p : Plug V A) (hp : dictLookup st.plugs nm = some p) :
    (PlugsMixin.setattr st nm v).2 = some SetattrError.immutableName
    ∧ (PlugsMixin.setattr st nm v).1.plugs = st.plugs := by
  simp [PlugsMixin.setattr, hp]

/-- C7 witness: on a host holding a plug named `"x"`, assigning to `"x"` is
rejected with the ImmutableName error and the plug remains bound. -/
theorem claim7_witness :
    (PlugsMixin.setattr (V := Unit) (A := Unit) ⟨[("x", ⟨[], []⟩)], []⟩ "x" ()).2
      = some SetattrError.immutableName
    ∧ (PlugsMixin.setattr (V := Unit) (A := Unit)
        ⟨[("x", ⟨[], []⟩)], []⟩ "x" ()).1.plugs = [("x", ⟨[], []⟩)] :=
  claim7_immutable_name ⟨[("x", ⟨[], []⟩)], []⟩ "x" () ⟨[], []⟩ rfl

/-! ## History append lemmas and claim C8 -/

theorem History.appendLoop_no_mismatch {V : Type} (pairs : List (Nat × V)) (h : History V) :
    (History.appendLoop h pairs).2 ≠ some HistError.lengthMismatch := by
  induction pairs generalizing h with
  | nil => simp [History.appendLoop]
  | cons p rest ih =>
    obtain ⟨i, a⟩ := p
    by_cases hi : i < h.hist.length
    · rw [History.appendLoop, dif_pos hi]
      exact ih _
    · rw [History.appendLoop, dif_neg hi]
      simp

theorem History.appendLoop_spec {V : Type} (pairs : List (Nat × V)) (h : History V)
    (hval : ∀ p ∈ pairs, p.1 < h.hist.length)
    (hnd : (pairs.map Prod.fst).Nodup) :
    (History.appendLoop h pairs).2 = none
    ∧ (History.appendLoop h pairs).1.maxlen = h.maxlen
    ∧ (History.appendLoop h pairs).1.hist.length = h.hist.length
    ∧ (∀ i a, (i, a) ∈ pairs →
        ((History.appendLoop h pairs).1.hist)[i]?
          = (h.hist[i]?).map (fun sl => History.dequeAppend h.maxlen sl a))
    ∧ (∀ i, i ∉ pairs.map Prod.fst →
        ((History.appendLoop h pairs).1.hist)[i]? = h.hist[i]?) := by
  induction pairs generalizing h with
  | nil => simp [History.appendLoop]
  | cons p rest ih =>
    obtain ⟨i, a⟩ := p
    have hi : i < h.hist.length := hval (i, a) (List.mem_cons_self _ _)
    rw [List.map_cons, List.nodup_cons] at hnd
    set h' : History V :=
      ⟨h.maxlen, h.hist.set i (History.dequeAppend h.maxlen (h.hist.get ⟨i, hi⟩) a)⟩ with hh'
    have hstep : History.appendLoop h ((i, a) :: rest) = History.appendLoop h' rest := by
      rw [History.appendLoop, dif_pos hi]
    have hlen' : h'.hist.length = h.hist.length := by
      simp [hh', List.length_set]
    obtain ⟨e0, e1, e2, e3, e4⟩ := ih h'
      (fun p hp => hlen' ▸ hval p (List.mem_cons_of_mem _ hp)) hnd.2
    have hmax : h'.maxlen = h.maxlen := rfl
    refine ⟨hstep ▸ e0, by rw [hstep, e1, hmax], by rw [hstep, e2, hlen'], ?_, ?_⟩
    · intro j b hmem
      rw [hstep]
      rcases List.mem_cons.mp hmem with heq | hmem'
      · obtain ⟨rfl, rfl⟩ := Prod.mk.injEq .. ▸ heq
        rw [e4 j (by exact fun hj => hnd.1 hj)]
        have : h'.hist[j]? = some (History.dequeAppend h.maxlen (h.hist.get ⟨j, hi⟩) b) := by
          simp only [hh']
          exact List.getElem?_set_self hi
        rw [this, List.getElem?_eq_getElem hi]
        rfl
      · have hjne : j ≠ i := by
          intro hji
          exact hnd.1 (hji ▸ List.mem_map.mpr ⟨(j, b), hmem', rfl⟩)
        rw [e3 j b hmem', hmax]
        have : h'.hist[j]? = h.hist[j]? := by
          simp only [hh']
          exact List.getElem?_set_ne (fun hij => hjne hij.symm)
        rw [this]
    · intro j hj
      rw [hstep, e4 j (fun hj' => hj (List.mem_cons_of_mem _ hj'))]
      simp only [hh']
      exact List.getElem?_set_ne (fun hij => hj (by simp [List.map_cons, ← hij]))

/-- C8: `History.append` fails with the LengthMismatch error exactly when the
number of positional values differs from the number of selected slots (all
slots when `variables` is omitted); on that failure the history is completely
unchanged, and otherwise no error occurs and each value is appended (with
eviction at capacity) to its corresponding slot, unselected slots being left
alone. -/
theorem claim8_append_length_mismatch {V : Type} (h : History V) (args : List V)
    (vars? : Option (List Nat))
    (hval : ∀ i ∈ vars?.getD (List.range h.nvars), i < h.hist.length)
    (hnd : (vars?.getD (List.range h.nvars)).Nodup) :
    (((History.append h args vars?).2 = some HistError.lengthMismatch)
        ↔ args.length ≠ (vars?.getD (List.range h.nvars)).length)
    ∧ (args.length ≠ (vars?.getD (List.range h.nvars)).length →
        (History.append h args vars?).1 = h)
    ∧ (args.length = (vars?.getD (List.range h.nvars)).length →
        (History.append h args vars?).2 = none
        ∧ (∀ i a, (i, a) ∈ (vars?.getD (List.range h.nvars)).zip args →
            ((History.append h args vars?).1.hist)[i]?
              = (h.hist[i]?).map (fun sl => History.dequeAppend h.maxlen sl a))
        ∧ (∀ i, i ∉ vars?.getD (List.range h.nvars) →
            ((History.append h args vars?).1.hist)[i]? = h.hist[i]?)) := by
  set vars := vars?.getD (List.range h.nvars) with hvars
  by_cases hlen : args.length = vars.length
  · have happ : History.append h args vars? = History.appendLoop h (vars.zip args) := by
      rw [History.append, ← hvars, if_neg (by simp [hlen])]
    have hfst : (vars.zip args).map Prod.fst = vars :=
      List.map_fst_zip vars args (le_of_eq hlen.symm)
    obtain ⟨e0, _, _, e3, e4⟩ := History.appendLoop_spec (vars.zip args) h
      (fun p hp => hval p.1 (List.of_mem_zip hp).1) (by rw [hfst]; exact hnd)
    refine ⟨?_, fun hne => absurd hlen hne, fun _ => ⟨happ ▸ e0, ?_, ?_⟩⟩
    · rw [happ]
      simp [e0, hlen]
    · intro i a hmem
      rw [happ]
      exact e3 i a hmem
    · intro i hi
      rw [happ]
      exact e4 i (by rw [hfst]; exact hi)
  · have happ : History.append h args vars? = (h, some HistError.lengthMismatch) := by
      rw [History.append, ← hvars, if_pos (by simp [hlen])]
    refine ⟨?_, fun _ => by rw [happ], fun heq => absurd heq hlen⟩
    rw [happ]
    simp [hlen]

/-- C8 witness: on a two-slot history of capacity 2 holding `[1]` and `[2]`,
`append([10, 20])` (no `variables`) succeeds with no error and appends one
value per slot; `append([10])` fails with LengthMismatch and leaves the
history untouched. -/
theorem claim8_witness :
    ((History.append (⟨2, [[1], [2]]⟩ : History Nat) [10, 20] none).2 = none
      ∧ ((History.append (⟨2, [[1], [2]]⟩ : History Nat) [10, 20] none).1.hist)[0]?
          = some [1, 10]
      ∧ ((History.append (⟨2, [[1], [2]]⟩ : History Nat) [10, 20] none).1.hist)[1]?
          = some [2, 20])
    ∧ ((History.append (⟨2, [[1], [2]]⟩ : History Nat) [10] none).2
          = some HistError.lengthMismatch
      ∧ (History.append (⟨2, [[1], [2]]⟩ : History Nat) [10] none).1
          = (⟨2, [[1], [2]]⟩ : History Nat)) := by
  have h1 := claim8_append_length_mismatch (⟨2, [[1], [2]]⟩ : History Nat) [10, 20] none
    (by decide) (by decide)
  have h2 := claim8_append_length_mismatch (⟨2, [[1], [2]]⟩ : History Nat) [10] none
    (by decide) (by decide)
  obtain ⟨e0, e3, -⟩ := h1.2.2 rfl
  refine ⟨⟨e0, (e3 0 10 (by decide)).trans (by decide), (e3 1 20 (by decide)).trans (by decide)⟩,
    h2.1.mpr (by decide), h2.2.1 (by decide)⟩

/-! ## History clear lemmas and claim C9 -/

theorem History.perm_insertDesc (i : Nat) (l : List Nat) :
    (History.insertDesc i l).Perm (i :: l) := by
  induction l with
  | nil => exact List.Perm.refl _
  | cons j js ih =>
    rw [History.insertDesc]
    by_cases hj : j ≤ i
    · rw [if_pos hj]
    · rw [if_neg hj]
      exact (ih.cons j).trans (List.Perm.swap i j js)

theorem History.perm_sortDesc (l : List Nat) : (History.sortDesc l).Perm l := by
  induction l with
  | nil => exact List.Perm.refl _
  | cons i is ih =>
    rw [History.sortDesc]
    exact (History.perm_insertDesc i (History.sortDesc is)).trans (ih.cons i)

theorem History.pairwise_ge_insertDesc (i : Nat) (l : List Nat)
    (h : List.Pairwise (· ≥ ·) l) : List.Pairwise (· ≥ ·) (History.insertDesc i l) := by
  induction l with
  | nil => simp [History.insertDesc]
  | cons j js ih =>
    obtain ⟨hj_ge, hjs⟩ := List.pairwise_cons.mp h
    rw [History.insertDesc]
    by_cases hji : j ≤ i
    · rw [if_pos hji]
      refine List.pairwise_cons.mpr ⟨?_, h⟩
      intro b hb
      rcases List.mem_cons.mp hb with rfl | hb'
      · exact hji
      · exact le_trans (hj_ge b hb') hji
    · rw [if_neg hji]
      refine List.pairwise_cons.mpr ⟨?_, ih hjs⟩
      intro b hb
      rcases List.mem_cons.mp ((History.perm_insertDesc i js).mem_iff.mp hb) with rfl | hb'
      · exact le_of_not_le hji
      · exact hj_ge b hb'

theorem History.pairwise_ge_sortDesc (l : List Nat) :
    List.Pairwise (· ≥ ·) (History.sortDesc l) := by
  induction l with
  | nil => simp [History.sortDesc]
  | cons i is ih =>
    rw [History.sortDesc]
    exact History.pairwise_ge_insertDesc i _ ih

theorem History.pairwise_gt_sortDesc (l : List Nat) (hnd : l.Nodup) :
    List.Pairwise (· > ·) (History.sortDesc l) := by
  have hnd' : (History.sortDesc l).Nodup := ((History.perm_sortDesc l).nodup_iff).mpr hnd
  exact ((History.pairwise_ge_sortDesc l).and hnd').imp
    (fun hab => lt_of_le_of_ne hab.1 (Ne.symm hab.2))

theorem History.keepNotIn_append {V : Type} (idxs : List Nat) (p : Nat) (ys zs : List V) :
    History.keepNotIn idxs p (ys ++ zs)
      = History.keepNotIn idxs p ys ++ History.keepNotIn idxs (p + ys.length) zs := by
  induction ys generalizing p with
  | nil => simp [History.keepNotIn]
  | cons y ys ih =>
    have harith : p + 1 + ys.length = p + (ys.length + 1) := by omega
    by_cases hp : p ∈ idxs
    · simp only [List.cons_append, History.keepNotIn, if_pos hp, List.append_eq, ih,
        List.length_cons, harith]
    · simp only [List.cons_append, History.keepNotIn, if_neg hp, List.append_eq, ih,
        List.length_cons, harith]

theorem History.keepNotIn_of_lt {V : Type} (idxs : List Nat) (p : Nat) (zs : List V)
    (h : ∀ i ∈ idxs, i < p) : History.keepNotIn idxs p zs = zs := by
  induction zs generalizing p with
  | nil => rfl
  | cons z zs ih =>
    have hp : p ∉ idxs := fun hmem => absurd (h p hmem) (lt_irrefl p)
    rw [History.keepNotIn, if_neg hp, ih (p + 1) (fun i hi => Nat.lt_succ_of_lt (h i hi))]

theorem History.keepNotIn_cons_of_le {V : Type} (m : Nat) (idxs : List Nat) (p : Nat)
    (ys : List V) (h : p + ys.length ≤ m) :
    History.keepNotIn (m :: idxs) p ys = History.keepNotIn idxs p ys := by
  induction ys generalizing p with
  | nil => rfl
  | cons y ys ih =>
    have hlen : p + (ys.length + 1) ≤ m := by simpa using h
    have hpm : p ≠ m := by omega
    have hrec := ih (p + 1) (by omega)
    by_cases hp : p ∈ idxs
    · rw [History.keepNotIn, History.keepNotIn, if_pos (List.mem_cons_of_mem _ hp),
        if_pos hp, hrec]
    · rw [History.keepNotIn, History.keepNotIn,
        if_neg (by simp [List.mem_cons, hpm, hp]), if_neg hp, hrec]

theorem History.keepNotIn_congr {V : Type} (idxs1 idxs2 : List Nat)
    (h : ∀ q, q ∈ idxs1 ↔ q ∈ idxs2) (p : Nat) (xs : List V) :
    History.keepNotIn idxs1 p xs = History.keepNotIn idxs2 p xs := by
  induction xs generalizing p with
  | nil => rfl
  | cons x xs ih =>
    by_cases hp : p ∈ idxs1
    · rw [History.keepNotIn, History.keepNotIn, if_pos hp, if_pos ((h p).mp hp), ih]
    · rw [History.keepNotIn, History.keepNotIn, if_neg hp,
        if_neg (fun hc => hp ((h p).mpr hc)), ih]

theorem History.keepNotIn_erase {V : Type} (m : Nat) (rest : List Nat) (xs : List V)
    (hm : m < xs.length) (hrest : ∀ i ∈ rest, i < m) :
    History.keepNotIn rest 0 (xs.eraseIdx m) = History.keepNotIn (m :: rest) 0 xs := by
  have hlen_take : (xs.take m).length = m := by
    rw [List.length_take]
    omega
  rw [List.eraseIdx_eq_take_drop_succ, History.keepNotIn_append, hlen_take, Nat.zero_add,
    History.keepNotIn_of_lt rest m _ hrest]
  conv_rhs => rw [← List.take_append_drop m xs]
  rw [History.keepNotIn_append, hlen_take, Nat.zero_add, List.drop_eq_getElem_cons hm,
    History.keepNotIn, if_pos (List.mem_cons_self m rest),
    History.keepNotIn_of_lt (m :: rest) (m + 1) _ ?hlt,
    History.keepNotIn_cons_of_le m rest 0 (xs.take m) (by omega)]
  case hlt =>
    intro i hi
    rcases List.mem_cons.mp hi with rfl | hi'
    · omega
    · exact Nat.lt_succ_of_lt (hrest i hi')

theorem History.delLoop_sorted {V : Type} (sorted : List Nat) (xs : List V)
    (hs : List.Pairwise (· > ·) sorted) (hval : ∀ i ∈ sorted, i < xs.length) :
    History.delLoop xs sorted = (History.keepNotIn sorted 0 xs, none) := by
  induction sorted generalizing xs with
  | nil =>
    rw [History.delLoop, History.keepNotIn_of_lt [] 0 xs (by simp)]
  | cons m rest ih =>
    have hm : m < xs.length := hval m (List.mem_cons_self _ _)
    have hrest_lt : ∀ i ∈ rest, i < m := (List.pairwise_cons.mp hs).1
    have hlen_erase : (xs.eraseIdx m).length = xs.length - 1 :=
      List.length_eraseIdx_of_lt hm
    rw [History.delLoop, if_pos hm,
      ih (xs.eraseIdx m) (List.pairwise_cons.mp hs).2
        (fun i hi => by rw [hlen_erase]; have := hrest_lt i hi; omega),
      History.keepNotIn_erase m rest xs hm hrest_lt]

/-- Deleting a Nodup collection of in-range positions from one slot, with the
source's sort-descending-then-delete loop, keeps exactly the elements whose
pre-clear position is outside the collection, in their original order. -/
theorem History.clearSlot_spec {V : Type} (idx : List Nat) (xs : List V)
    (hnd : idx.Nodup) (hval : ∀ i ∈ idx, i < xs.length) :
    History.delLoop xs (History.sortDesc idx) = (History.keepNotIn idx 0 xs, none) := by
  have hperm := History.perm_sortDesc idx
  rw [History.delLoop_sorted (History.sortDesc idx) xs
      (History.pairwise_gt_sortDesc idx hnd)
      (fun i hi => hval i (hperm.mem_iff.mp hi)),
    History.keepNotIn_congr (History.sortDesc idx) idx (fun q => hperm.mem_iff) 0 xs]

theorem History.delVarsLoop_spec {V : Type} (sidx : List Nat) (F : List V → List V)
    (vars : List Nat) (h : History V)
    (hvv : ∀ v ∈ vars, v < h.hist.length)
    (hnd : vars.Nodup)
    (hslot : ∀ v (hv : v < h.hist.length), v ∈ vars →
        History.delLoop (h.hist.get ⟨v, hv⟩) sidx = (F (h.hist.get ⟨v, hv⟩), none)) :
    (History.delVarsLoop sidx h vars).2 = none
    ∧ (History.delVarsLoop sidx h vars).1.maxlen = h.maxlen
    ∧ (∀ j, j ∈ vars →
        ((History.delVarsLoop sidx h vars).1.hist)[j]? = (h.hist[j]?).map F)
    ∧ (∀ j, j ∉ vars →
        ((History.delVarsLoop sidx h vars).1.hist)[j]? = h.hist[j]?) := by
  induction vars generalizing h with
  | nil => simp [History.delVarsLoop]
  | cons v vs ih =>
    have hv : v < h.hist.length := hvv v (List.mem_cons_self _ _)
    rw [List.nodup_cons] at hnd
    set h' : History V := ⟨h.maxlen, h.hist.set v (F (h.hist.get ⟨v, hv⟩))⟩ with hh'
    have hstep : History.delVarsLoop sidx h (v :: vs) = History.delVarsLoop sidx h' vs := by
      rw [History.delVarsLoop, dif_pos hv, hslot v hv (List.mem_cons_self _ _)]
    have hlen' : h'.hist.length = h.hist.length := by
      simp [hh', List.length_set]
    have hget' : ∀ w (hw : w < h.hist.length), w ≠ v →
        h'.hist.get ⟨w, hlen' ▸ hw⟩ = h.hist.get ⟨w, hw⟩ := by
      intro w hw hwv
      simp only [hh', List.get_eq_getElem]
      exact List.getElem_set_ne (fun hvw => hwv hvw.symm) _
    obtain ⟨e0, e1, e3, e4⟩ := ih h'
      (fun w hw => hlen' ▸ hvv w (List.mem_cons_of_mem _ hw)) hnd.2
      (fun w hw hwmem => by
        have hw0 : w < h.hist.length := hlen' ▸ hw
        have hwv : w ≠ v := fun hc => hnd.1 (hc ▸ hwmem)
        have hrw : h'.hist.get ⟨w, hw⟩ = h.hist.get ⟨w, hw0⟩ := hget' w hw0 hwv
        rw [hrw]
        exact hslot w hw0 (List.mem_cons_of_mem _ hwmem))
    have hmax : h'.maxlen = h.maxlen := rfl
    refine ⟨hstep ▸ e0, by rw [hstep, e1, hmax], ?_, ?_⟩
    · intro j hj
      rw [hstep]
      rcases List.mem_cons.mp hj with rfl | hj'
      · rw [e4 j hnd.1]
        have : h'.hist[j]? = some (F (h.hist.get ⟨j, hv⟩)) := by
          simp only [hh']
          exact List.getElem?_set_self hv
        rw [this, List.getElem?_eq_getElem hv]
        rfl
      · have hjv : j ≠ v := fun hc => hnd.1 (hc ▸ hj')
        rw [e3 j hj']
        have : h'.hist[j]? = h.hist[j]? := by
          simp only [hh']
          exact List.getElem?_set_ne (fun hc => hjv hc.symm)
        rw [this]
    · intro j hj
      rw [hstep, e4 j (fun hj' => hj (List.mem_cons_of_mem _ hj'))]
      simp only [hh']
      exact List.getElem?_set_ne
        (fun hc => hj (by rw [← hc]; exact List.mem_cons_self _ _))

/-- C9: clearing with a Nodup collection of positions valid for every slot
deletes, from each slot, exactly the elements at those positions as counted
in the pre-clear state (the source deletes from the highest position down),
leaving the remaining elements in their original relative order and raising
no error. -/
theorem claim9_clear_indices {V : Type} (h : History V) (idx : List Nat)
    (hnd : idx.Nodup)
    (hval : ∀ sl ∈ h.hist, ∀ i ∈ idx, i < sl.length) :
    History.clear h (some idx) none
      = (⟨h.maxlen, h.hist.map (fun xs => History.keepNotIn idx 0 xs)⟩, none) := by
  obtain ⟨e0, e1, e3, e4⟩ := History.delVarsLoop_spec (History.sortDesc idx)
    (fun xs => History.keepNotIn idx 0 xs) (List.range h.hist.length) h
    (fun v hv => List.mem_range.mp hv) (List.nodup_range _)
    (fun v hv _ => History.clearSlot_spec idx (h.hist.get ⟨v, hv⟩) hnd
      (hval _ (List.get_mem h.hist v hv)))
  have hclear : History.clear h (some idx) none
      = History.delVarsLoop (History.sortDesc idx) h (List.range h.hist.length) := rfl
  rw [hclear]
  refine Prod.ext_iff.mpr ⟨?_, e0⟩
  have hhist : (History.delVarsLoop (History.sortDesc idx) h (List.range h.hist.length)).1.hist
      = h.hist.map (fun xs => History.keepNotIn idx 0 xs) := by
    apply List.ext_getElem?
    intro n
    by_cases hn : n < h.hist.length
    · rw [e3 n (List.mem_range.mpr hn), List.getElem?_map]
    · have hn' : h.hist.length ≤ n := le_of_not_lt hn
      rw [e4 n (fun hc => hn (List.mem_range.mp hc)), List.getElem?_eq_none hn',
        List.getElem?_eq_none (by rw [List.length_map]; exact hn')]
  calc (History.delVarsLoop (History.sortDesc idx) h (List.range h.hist.length)).1
      = ⟨(History.delVarsLoop (History.sortDesc idx) h (List.range h.hist.length)).1.maxlen,
         (History.delVarsLoop (History.sortDesc idx) h (List.range h.hist.length)).1.hist⟩ :=
        rfl
    _ = ⟨h.maxlen, h.hist.map (fun xs => History.keepNotIn idx 0 xs)⟩ := by rw [e1, hhist]

/-- C9 witness: `clear(index=[0, 2])` on the single slot `[10, 11, 12, 13]`
of length 4 deletes the elements at pre-clear positions 0 and 2 and keeps
the elements originally at positions 1 and 3, in that order. -/
theorem claim9_witness :
    History.clear (⟨4, [[10, 11, 12, 13]]⟩ : History Nat) (some [0, 2]) none
      = (⟨4, [[11, 13]]⟩, none) := by
  rw [claim9_clear_indices (⟨4, [[10, 11, 12, 13]]⟩ : History Nat) [0, 2]
    (by decide) (by decide)]
  decide

/-! ## Metric lemmas and claim C10 -/

theorem listDot_agree : ∀ x y r, listDot x y = some r → r = listMulSum x y := by
  intro x y r h
  rw [listDot] at h
  split at h
  · exact (Option.some.injEq .. ▸ h).symm
  · cases h

/-- C10: for array-like operands — where the native dot reduction, whenever it
succeeds, agrees with elementwise multiply-then-sum — `inner(a, b)` equals
`sum(a * M(b))` with `M` the held transform; with no metric given the held
transform is the identity and the result is `sum(a * b)`.  The native
reduction is tried first and any failure of it yields the fallback value
rather than an error. -/
theorem claim10_inner_fallback {V R : Type} (M : Metric V) (dotFn : V → V → Option R)
    (mulSum : V → V → R) (a b : V)
    (hagree : ∀ x y r, dotFn x y = some r → r = mulSum x y) :
    M.inner dotFn mulSum a b = mulSum a (M.metric b)
    ∧ (Metric.ofMetric none).inner dotFn mulSum a b = mulSum a b
    ∧ (dotFn a (M.metric b) = none → M.inner dotFn mulSum a b = mulSum a (M.metric b)) := by
  have hgen : ∀ (N : Metric V), N.inner dotFn mulSum a b = mulSum a (N.metric b) := by
    intro N
    rw [Metric.inner]
    rcases hdot : dotFn a (N.metric b) with _ | r
    · rfl
    · exact hagree a (N.metric b) r hdot
  exact ⟨hgen M, hgen (Metric.ofMetric none), fun _ => hgen M⟩

/-- C10 witness: with the default (identity) metric,
`inner([1, 2], [3, 4]) = 1*3 + 2*4 = 11`; with the doubling transform as
metric, `inner([1, 2], [3, 4]) = 1*6 + 2*8 = 22`. -/
theorem claim10_witness :
    (Metric.ofMetric none).inner listDot listMulSum [1, 2] [3, 4] = 11
    ∧ (Metric.ofMetric (some (fun v => v.map (fun x => x * 2)))).inner
        listDot listMulSum [1, 2] [3, 4] = 22 :=
  ⟨((claim10_inner_fallback (Metric.ofMetric none) listDot listMulSum
      [1, 2] [3, 4] listDot_agree).1).trans (by decide),
   ((claim10_inner_fallback (Metric.ofMetric (some (fun v => v.map (fun x => x * 2))))
      listDot listMulSum [1, 2] [3, 4] listDot_agree).1).trans (by decide)⟩

end Sisl
